import Mathlib

/-!
Shallow embedding of the FlashFind index core (src/index.rs, src/indexer.rs,
src/persistence.rs, src/error.rs, src/app.rs).

Modelling conventions:
* Rust `String`/`str` is `Str := List Char` (Unicode scalar values).
* `OsString` is `Option Str`: `some s` is a component representable as text
  (`to_str` succeeds), `none` a non-representable one (`to_str` fails).
* `PathBuf` is the list of its components; `file_name()` is the last component.
* `AHashMap<String, Vec<u32>>` is an association list in insertion order; the
  `entry(k).or_default().push(v)` idiom appends `v` to the vector of `k`.
* `HashSet<PathBuf>` is a duplicate-free list; set collection (`extend` /
  `collect`) is modelled by `List.dedup`.
* `usize`/`u32` are `Nat`; the one `as u32` cast is `% 2 ^ 32`.
* `to_lowercase` is modelled on the ASCII range (the only range the
  repository's tests and data exercise); `char::is_whitespace` is
  `Char.isWhitespace`.
* Rust `sort_unstable_by` leaves the order of equal keys unspecified, so any
  comparison sort refines it; we use `List.insertionSort`.
-/

namespace FlashFind

abbrev Str := List Char

/-- Model of `OsString`: `some s` when `to_str` succeeds with contents `s`. -/
abbrev OsStr := Option Str

/-- Model of `PathBuf` as its list of components. -/
abbrev Path := List OsStr

/-- Constant `MAX_INDEX_SIZE` from src/index.rs. -/
def MAX_INDEX_SIZE : Nat := 10000000

/-- Constant `INDEX_VERSION` from src/index.rs. -/
def INDEX_VERSION : Nat := 1

/-- Modulus of the `as u32` cast. -/
def U32_MOD : Nat := 2 ^ 32

/-- Errors of `FlashFindError` from src/error.rs, payloads kept where they are data. -/
inductive FlashFindError where
  | FileReadError (path : Str)
  | FileWriteError (path : Str)
  | DirectoryCreationError (path : Str)
  | InvalidPath (s : Str)
  | CorruptedIndex
  | IndexFull (n : Nat)
  | InsertionFailed (s : Str)
  | WatcherInitError
  | WatchError (path : Str)
  | Timeout (secs : Nat)
  | ThreadPanic (s : Str)
  | InvalidConfig (s : Str)
  | VersionMismatch (found expected : Nat)
  | PermissionDenied (s : Str)
  | SystemFolderError (s : Str)
  | OutOfMemory
  | Cancelled
  | InvalidQuery (s : Str)
deriving DecidableEq

/-- Predicate `FlashFindError::is_recoverable` from src/error.rs lines 92-100. -/
def FlashFindError.is_recoverable : FlashFindError → Bool
  | .Timeout _ => true
  | .Cancelled => true
  | .InvalidQuery _ => true
  | .WatchError _ => true
  | _ => false

/-- ASCII model of `char::to_lowercase` (identity outside `A`-`Z`). -/
def lowerChar (c : Char) : Char :=
  match c with
  | 'A' => 'a' | 'B' => 'b' | 'C' => 'c' | 'D' => 'd' | 'E' => 'e'
  | 'F' => 'f' | 'G' => 'g' | 'H' => 'h' | 'I' => 'i' | 'J' => 'j'
  | 'K' => 'k' | 'L' => 'l' | 'M' => 'm' | 'N' => 'n' | 'O' => 'o'
  | 'P' => 'p' | 'Q' => 'q' | 'R' => 'r' | 'S' => 's' | 'T' => 't'
  | 'U' => 'u' | 'V' => 'v' | 'W' => 'w' | 'X' => 'x' | 'Y' => 'y'
  | 'Z' => 'z'
  | _ => c

/-- Model of `str::to_lowercase`. -/
def toLowerStr (s : Str) : Str := s.map lowerChar

/-- Model of `char::is_whitespace` as used by `str::trim`. -/
def isWS (c : Char) : Bool := c.isWhitespace

/-- Leading-whitespace removal (`str::trim_start`). -/
def trimStart (s : Str) : Str := s.dropWhile isWS

/-- Trailing-whitespace removal (`str::trim_end`). -/
def trimEnd (s : Str) : Str := (s.reverse.dropWhile isWS).reverse

/-- Model of `str::trim`. -/
def trim (s : Str) : Str := trimEnd (trimStart s)

/-- Model of `str::contains(&str)` (substring containment). -/
def strContains (hay needle : Str) : Bool := decide (needle <:+: hay)

/-- Model of `str::ends_with(&str)`. -/
def strEndsWith (hay suffix : Str) : Bool := decide (suffix <:+ hay)

/-- The U+FFFD replacement character produced by lossy conversion. -/
def replChar : Char := Char.ofNat 0xFFFD

/-- Lossy text of one component (`to_string_lossy` on an `OsStr`). -/
def lossyComp : OsStr → Str
  | some s => s
  | none => [replChar]

/-- Model of `Path::display().to_string()` and `Path::to_string_lossy()`:
the components joined by the platform separator, lossily converted. -/
def pathDisplay (p : Path) : Str := List.intercalate [ '\\' ] (p.map lossyComp)

/-- Model of `path.file_name().and_then(|n| n.to_str())`. -/
def fileNameStr (p : Path) : Option Str :=
  match p.getLast? with
  | some (some s) => some s
  | _ => none

/-- Extension of a filename per `Path::extension`: the part after the last
`.`, unless there is no `.` or the only `.` is the leading character. -/
def extOf (s : Str) : Option Str :=
  match s.reverse.span (fun c => ¬ (c = '.')) with
  | (_, []) => none
  | (afterRev, _ :: beforeRev) => if beforeRev = [] then none else some afterRev.reverse

/-- Model of `path.extension().and_then(|e| e.to_str())`.  (For a path whose
filename is not representable as text the Rust value could differ, but
`insert` — the only caller — consults it only after `file_name().to_str()`
succeeded, where the two agree.) -/
def pathExtension (p : Path) : Option Str :=
  match fileNameStr p with
  | some s => extOf s
  | none => none

/-- Counters `IndexStats` from src/index.rs (atomics read/written with relaxed
ordering under the index's writer lock; modelled as plain counters). -/
structure IndexStats where
  insertions : Nat
  duplicates : Nat
  searches : Nat
deriving DecidableEq

/-- Structure `FileIndex` from src/index.rs.  Fields `seen_paths` and `stats` carry
`#[serde(skip)]` in the source; persistence is modelled by `DiskIndex`. -/
structure FileIndex where
  version : Nat
  pool : List Path
  filename_index : List (Str × List Nat)
  extension_index : List (Str × List Nat)
  seen_paths : List Path
  stats : IndexStats
deriving DecidableEq

/-- Constructor `FileIndex::new` / `FileIndex::default`. -/
def FileIndex.new : FileIndex :=
  ⟨INDEX_VERSION, [], [], [], [], ⟨0, 0, 0⟩⟩

/-- Operation `FileIndex::rebuild_cache`: `seen_paths = pool.iter().cloned().collect()`. -/
def FileIndex.rebuild_cache (i : FileIndex) : FileIndex :=
  { i with seen_paths := i.pool.dedup }

/-- Observer `FileIndex::len`. -/
def FileIndex.len (i : FileIndex) : Nat := i.pool.length

/-- Operation `FileIndex::clear`. -/
def FileIndex.clear (i : FileIndex) : FileIndex :=
  { i with pool := [], filename_index := [], extension_index := [],
           seen_paths := [], stats := ⟨0, 0, 0⟩ }

/-- The `entry(k).or_default().push(v)` idiom on a posting map. -/
def addPosting : List (Str × List Nat) → Str → Nat → List (Str × List Nat)
  | [], k, v => [(k, [v])]
  | (k', vs) :: rest, k, v =>
      if k' = k then (k', vs ++ [v]) :: rest else (k', vs) :: addPosting rest k v

/-- Lookup in a posting map (`HashMap::get`). -/
def findPostings : List (Str × List Nat) → Str → Option (List Nat)
  | [], _ => none
  | (k', vs) :: rest, k => if k' = k then some vs else findPostings rest k

/-- Operation `FileIndex::insert` from src/index.rs lines 112-156: the pair is
(returned `Result<bool>`, state of the index after the call). -/
def FileIndex.insert (i : FileIndex) (p : Path) : Except FlashFindError Bool × FileIndex :=
  if MAX_INDEX_SIZE ≤ i.pool.length then
    (.error (.IndexFull MAX_INDEX_SIZE), i)
  else if p ∈ i.seen_paths then
    (.ok false, { i with stats := { i.stats with duplicates := i.stats.duplicates + 1 } })
  else
    match fileNameStr p with
    | none => (.error (.InvalidPath (pathDisplay p)), i)
    | some filename =>
      let idx := i.pool.length % U32_MOD
      let lower_name := toLowerStr filename
      let fidx := addPosting i.filename_index lower_name idx
      let eidx :=
        match pathExtension p with
        | some e => addPosting i.extension_index (toLowerStr e) idx
        | none => i.extension_index
      (.ok true,
        { i with pool := i.pool ++ [p],
                 filename_index := fidx,
                 extension_index := eidx,
                 seen_paths := i.seen_paths ++ [p],
                 stats := { i.stats with insertions := i.stats.insertions + 1 } })

/-- Operation `FileIndex::remove` from src/index.rs lines 159-168: only the seen-path
set is touched; pool and posting lists are left as they are. -/
def FileIndex.remove (i : FileIndex) (p : Path) : Except FlashFindError Bool × FileIndex :=
  if p ∈ i.seen_paths then
    (.ok true, { i with seen_paths := i.seen_paths.erase p })
  else
    (.ok false, i)

/-- Sort key of a result: `file_name().map(|n| n.to_string_lossy().to_lowercase())`. -/
def sortKey (p : Path) : Option Str := (p.getLast?).map (fun os => toLowerStr (lossyComp os))

/-- Comparator of `search`'s final sort (`Option` order: `None` first,
`Some` by lexicographic string order). -/
def keyLe : Option Str → Option Str → Bool
  | none, _ => true
  | some _, none => false
  | some a, some b => decide (a ≤ b)

/-- The comparison used by the final sort of `search`. -/
def resultLe (a b : Path) : Prop := keyLe (sortKey a) (sortKey b) = true

instance : DecidableRel resultLe := fun _ _ => instDecidableEqBool _ _

/-- Matched pool indices of a non-empty normalized query `q`
(src/index.rs lines 181-216), in collection order before deduplication. -/
def searchMatched (i : FileIndex) (q : Str) : List Nat :=
  if q.head? = some '.' then
    let ext := q.dropWhile (fun c => c == '.')
    let base := (findPostings i.extension_index ext).getD []
    let compound :=
      if '.' ∈ ext then
        ((List.range i.pool.length).filter
          (fun n => strEndsWith (toLowerStr (pathDisplay (i.pool.getD n []))) q)).map
          (fun n => n % U32_MOD)
      else []
    base ++ compound
  else
    (i.filename_index.filter (fun kv => strContains kv.1 q)).flatMap (fun kv => kv.2)

/-- Operation `FileIndex::search` from src/index.rs lines 173-234: the pair is
(returned result vector, state of the index after the call — the search
counter is bumped first thing). -/
def FileIndex.search (i : FileIndex) (query : Str) : List Path × FileIndex :=
  let i' := { i with stats := { i.stats with searches := i.stats.searches + 1 } }
  let q := toLowerStr (trim query)
  if q = [] then ([], i')
  else
    let deduped := (searchMatched i q).dedup
    let results := (deduped.filter (fun n => n < i.pool.length)).map
      (fun n => i.pool.getD n [])
    (results.insertionSort resultLe, i')

/-- Per-entry insertion loop of `scan_directories` (src/indexer.rs lines
214-226): `Ok(true)` counts the file, `Ok(false)` is a silent duplicate,
a non-recoverable error aborts the scan, a recoverable one is logged and
skipped. -/
def scanEntries : FileIndex → List Path → Nat → Except FlashFindError (Nat × FileIndex)
  | i, [], added => .ok (added, i)
  | i, p :: rest, added =>
    match i.insert p with
    | (.ok true, i') => scanEntries i' rest (added + 1)
    | (.ok false, i') => scanEntries i' rest added
    | (.error e, i') =>
      if e.is_recoverable then scanEntries i' rest added else .error e

/-- The serialized form of the index: exactly the fields without
`#[serde(skip)]` (src/index.rs lines 18-39, §6 of the spec). -/
structure DiskIndex where
  version : Nat
  pool : List Path
  filename_index : List (Str × List Nat)
  extension_index : List (Str × List Nat)
deriving DecidableEq

/-- Operation `save_index` (src/persistence.rs lines 107-133) up to the byte encoding:
serialization keeps the four persisted fields. -/
def saveIndex (i : FileIndex) : DiskIndex :=
  ⟨i.version, i.pool, i.filename_index, i.extension_index⟩

/-- State of the on-disk index file as `load_index` observes it: absent,
present but undeserializable, or present and decoding to `d`. -/
inductive DiskFile where
  | missing
  | corrupt
  | good (d : DiskIndex)

/-- Operation `load_index` from src/persistence.rs lines 61-100. -/
def loadIndex : DiskFile → Except FlashFindError FileIndex
  | .missing => .ok FileIndex.new
  | .corrupt => .error .CorruptedIndex
  | .good d =>
    let i : FileIndex := ⟨d.version, d.pool, d.filename_index, d.extension_index, [], ⟨0, 0, 0⟩⟩
    if ¬ (i.version = INDEX_VERSION) then
      .error (.VersionMismatch i.version INDEX_VERSION)
    else
      .ok i.rebuild_cache

/-- Index acquisition in `FlashFindApp::new` (src/app.rs lines 110-120):
a load error falls back to a fresh index with a warning. -/
def appLoadIndex (f : DiskFile) : FileIndex :=
  match loadIndex f with
  | .ok i => i
  | .error _ => FileIndex.new

/-- The index mutations of claim C3. -/
inductive Op where
  | ins (p : Path)
  | rem (p : Path)
  | clr
  | rebuild

/-- Application of one mutation to the index. -/
def applyOp (i : FileIndex) : Op → FileIndex
  | .ins p => (i.insert p).2
  | .rem p => (i.remove p).2
  | .clr => i.clear
  | .rebuild => i.rebuild_cache

deriving instance DecidableEq for Except

/-- Bound of a posting map: every stored pool index is below `n`. -/
def postingsBound (m : List (Str × List Nat)) (n : Nat) : Prop :=
  ∀ kv ∈ m, ∀ v ∈ kv.2, v < n

/-- The posting-list invariant of §3 of the spec. -/
def Inv (i : FileIndex) : Prop :=
  postingsBound i.filename_index i.pool.length ∧
  postingsBound i.extension_index i.pool.length

/-! Helper lemmas shared by several claims. -/

/-- Any error returned by `insert` is classified non-recoverable by
`FlashFindError::is_recoverable`. -/
lemma insert_error_not_recoverable (i : FileIndex) (p : Path) (e : FlashFindError)
    (h : (i.insert p).1 = .error e) : e.is_recoverable = false := by
  unfold FileIndex.insert at h
  by_cases h1 : MAX_INDEX_SIZE ≤ i.pool.length
  · rw [if_pos h1] at h
    simp only [Prod.fst] at h
    cases h
    rfl
  · rw [if_neg h1] at h
    by_cases h2 : p ∈ i.seen_paths
    · rw [if_pos h2] at h
      simp at h
    · rw [if_neg h2] at h
      cases h3 : fileNameStr p <;> rw [h3] at h
      · simp only [Prod.fst] at h
        cases h
        rfl
      · simp at h

/-- On success, `insert` appends to the pool and to the seen-path set. -/
lemma insert_ok (i : FileIndex) (p : Path) (s : Str)
    (hcap : i.pool.length < MAX_INDEX_SIZE) (hseen : p ∉ i.seen_paths)
    (hname : fileNameStr p = some s) :
    (i.insert p).1 = .ok true ∧
    (i.insert p).2.pool = i.pool ++ [p] ∧
    (i.insert p).2.seen_paths = i.seen_paths ++ [p] := by
  unfold FileIndex.insert
  rw [if_neg (Nat.not_le.mpr hcap), if_neg hseen, hname]
  exact ⟨rfl, rfl, rfl⟩

/-- At or above the cap, `insert` fails with `IndexFull` whatever the path. -/
lemma insert_full (i : FileIndex) (p : Path) (h : MAX_INDEX_SIZE ≤ i.pool.length) :
    (i.insert p).1 = .error (.IndexFull MAX_INDEX_SIZE) := by
  unfold FileIndex.insert
  rw [if_pos h]

/-! Claim C9. -/

/-- C9: `insert` is atomic on failure — whenever it returns an error
(`Full` or `InvalidPath`), the whole index state (pool, both posting
lists, seen-path set and all three statistics counters) is exactly as it
was before the call. -/
theorem insert_atomic_on_failure (i : FileIndex) (p : Path) (e : FlashFindError)
    (h : (i.insert p).1 = .error e) : (i.insert p).2 = i := by
  unfold FileIndex.insert at h ⊢
  by_cases h1 : MAX_INDEX_SIZE ≤ i.pool.length
  · rw [if_pos h1]
  · rw [if_neg h1] at h ⊢
    by_cases h2 : p ∈ i.seen_paths
    · rw [if_pos h2] at h
      simp at h
    · rw [if_neg h2] at h ⊢
      cases h3 : fileNameStr p
      · rfl
      · rw [h3] at h
        simp at h

/-- Witness for C9 at a concrete input: inserting a path with no
text-representable filename into the empty index leaves it unchanged. -/
theorem insert_atomic_on_failure_witness :
    (FileIndex.new.insert [none]).2 = FileIndex.new :=
  insert_atomic_on_failure FileIndex.new [none]
    (.InvalidPath (pathDisplay [none])) rfl

/-! Claim C8. -/

/-- C8 counterexample: on a corrupted index file, `load_index` surfaces
`CorruptedIndex` to its caller; it does not itself fall back to the empty
index. -/
theorem loadIndex_corrupt_surfaces_error :
    loadIndex DiskFile.corrupt = .error FlashFindError.CorruptedIndex ∧
    ¬ (loadIndex DiskFile.corrupt = .ok FileIndex.new) := by
  exact ⟨rfl, by simp [loadIndex]⟩

/-- C8 amended: `load_index` returns the `Corrupted` error to its caller;
the caller `FlashFindApp::new` catches any load error and falls back to a
fresh empty index (with a warning), so the corruption never surfaces past
the app constructor. -/
theorem load_error_fallback_in_app :
    loadIndex DiskFile.corrupt = .error FlashFindError.CorruptedIndex ∧
    appLoadIndex DiskFile.corrupt = FileIndex.new :=
  ⟨rfl, rfl⟩

/-! Claim C7. -/

/-- C7 counterexample: a query normalizing to the empty string returns the
empty result but the search counter is incremented (from 0 to 1 on the
fresh index), contradicting "does not increment the search counter". -/
theorem search_empty_query_increments_counter :
    (FileIndex.new.search [ ' ' ]).1 = [] ∧
    ¬ ((FileIndex.new.search [ ' ' ]).2.stats.searches = FileIndex.new.stats.searches) := by
  constructor
  · rfl
  · decide

/-- C7 amended: for every query that normalizes (trim, lowercase) to the
empty string, `search` returns the empty result and increments the search
counter exactly once, leaving the rest of the index unchanged. -/
theorem search_empty_query_spec (i : FileIndex) (q : Str)
    (h : toLowerStr (trim q) = []) :
    i.search q =
      ([], { i with stats := { i.stats with searches := i.stats.searches + 1 } }) := by
  unfold FileIndex.search
  rw [h]
  rfl

/-- Witness for the amended C7 at a concrete input. -/
theorem search_empty_query_spec_witness :
    FileIndex.new.search [ ' ' ] =
      ([], { FileIndex.new with
             stats := { FileIndex.new.stats with
                        searches := FileIndex.new.stats.searches + 1 } }) :=
  search_empty_query_spec FileIndex.new [ ' ' ] rfl

/-! Claim C6. -/

/-- An index whose pool is at the configured cap. -/
def atCapIndex : FileIndex :=
  { FileIndex.new with pool := List.replicate MAX_INDEX_SIZE [some [ 'a' ]] }

/-- C6 counterexample: at the capacity cap, inserting a path whose
filename component is absent returns `Full`, not `InvalidPath` — the
capacity check comes first in `insert`, so `InvalidPath` does not take
precedence. -/
theorem insert_at_cap_full_takes_precedence :
    fileNameStr ([] : Path) = none ∧
    (atCapIndex.insert []).1 = .error (.IndexFull MAX_INDEX_SIZE) ∧
    ¬ ((atCapIndex.insert []).1 = .error (.InvalidPath (pathDisplay []))) := by
  have hlen : MAX_INDEX_SIZE ≤ atCapIndex.pool.length := by
    simp [atCapIndex]
  refine ⟨rfl, ?_, ?_⟩
  · unfold FileIndex.insert
    rw [if_pos hlen]
  · unfold FileIndex.insert
    rw [if_pos hlen]
    simp

/-- C6 amended: `insert` rejects a path whose filename component is absent
or not representable as text with `InvalidPath`, provided the pool is
below the cap and the path is not an already-seen duplicate; the capacity
check precedes the filename extraction, so at the cap `Full` is returned
instead. -/
theorem insert_invalid_path_below_cap (i : FileIndex) (p : Path)
    (hcap : i.pool.length < MAX_INDEX_SIZE) (hseen : p ∉ i.seen_paths)
    (hname : fileNameStr p = none) :
    (i.insert p).1 = .error (.InvalidPath (pathDisplay p)) := by
  unfold FileIndex.insert
  rw [if_neg (Nat.not_le.mpr hcap), if_neg hseen, hname]

/-- Witness for the amended C6 at a concrete input. -/
theorem insert_invalid_path_below_cap_witness :
    (FileIndex.new.insert [none]).1 = .error (.InvalidPath (pathDisplay [none])) :=
  insert_invalid_path_below_cap FileIndex.new [none] (by decide) (by decide) rfl

/-! Claim C2. -/

/-- C2 counterexample: a per-entry `InvalidPath` during the scan loop is
not skipped — it aborts the scan (its error is non-recoverable), so the
valid entry after it is never inserted and the scan does not return the
skip-and-continue outcome. -/
theorem scan_invalid_path_aborts :
    scanEntries FileIndex.new [[none], [some [ 'a' ]]] 0 =
      .error (.InvalidPath (pathDisplay [none])) ∧
    (FlashFindError.InvalidPath (pathDisplay [none])).is_recoverable = false ∧
    ¬ (scanEntries FileIndex.new [[none], [some [ 'a' ]]] 0 =
        .ok (1, (FileIndex.new.insert [some [ 'a' ]]).2)) := by
  refine ⟨rfl, rfl, by decide⟩

/-- C2 amended: in the scan loop a `Duplicate` result is silently skipped
(the scan continues), but any per-entry insertion error terminates the
scan — both `InvalidPath` and `Full` do, because every error `insert`
returns is classified non-recoverable, so the log-and-skip branch is never
taken for them. -/
theorem scan_error_policy :
    (∀ (i : FileIndex) (p : Path) (rest : List Path) (n : Nat) (e : FlashFindError),
        (i.insert p).1 = .error e →
        scanEntries i (p :: rest) n = .error e) ∧
    (∀ (i : FileIndex) (p : Path) (e : FlashFindError),
        (i.insert p).1 = .error e → e.is_recoverable = false) ∧
    (∀ (i : FileIndex) (p : Path) (rest : List Path) (n : Nat),
        (i.insert p).1 = .ok false →
        scanEntries i (p :: rest) n = scanEntries (i.insert p).2 rest n) := by
  refine ⟨?_, insert_error_not_recoverable, ?_⟩
  · intro i p rest n e h
    have hrec : e.is_recoverable = false := insert_error_not_recoverable i p e h
    rcases hip : i.insert p with ⟨r, i'⟩
    rw [hip] at h
    simp only at h
    subst h
    simp [scanEntries, hip, hrec]
  · intro i p rest n h
    rcases hip : i.insert p with ⟨r, i'⟩
    rw [hip] at h
    simp only at h
    subst h
    simp [scanEntries, hip]

/-- Witness for the amended C2 at a concrete input. -/
theorem scan_error_policy_witness :
    scanEntries FileIndex.new [[none]] 0 =
      .error (.InvalidPath (pathDisplay [none])) :=
  scan_error_policy.1 FileIndex.new [none] [] 0
    (.InvalidPath (pathDisplay [none])) rfl

/-! Claim C3. -/

lemma postingsBound_mono {m : List (Str × List Nat)} {n n' : Nat}
    (h : n ≤ n') (hb : postingsBound m n) : postingsBound m n' :=
  fun kv hkv v hv => lt_of_lt_of_le (hb kv hkv v hv) h

lemma addPosting_bound {m : List (Str × List Nat)} {k : Str} {v n : Nat}
    (hb : postingsBound m n) (hv : v < n) : postingsBound (addPosting m k v) n := by
  induction m with
  | nil =>
    intro kv hkv x hx
    simp [addPosting] at hkv
    subst hkv
    simp at hx
    subst hx
    exact hv
  | cons head tail ih =>
    rcases head with ⟨k', vs⟩
    intro kv hkv x hx
    by_cases hk : k' = k
    · rw [show addPosting ((k', vs) :: tail) k v = (k', vs ++ [v]) :: tail from by
        simp [addPosting, hk]] at hkv
      rcases List.mem_cons.mp hkv with h | h
      · subst h
        rcases List.mem_append.mp hx with h' | h'
        · exact hb (k', vs) (List.mem_cons_self _ _) x h'
        · simp at h'
          subst h'
          exact hv
      · exact hb kv (List.mem_cons_of_mem _ h) x hx
    · rw [show addPosting ((k', vs) :: tail) k v = (k', vs) :: addPosting tail k v from by
        simp [addPosting, hk]] at hkv
      rcases List.mem_cons.mp hkv with h | h
      · subst h
        exact hb (k', vs) (List.mem_cons_self _ _) x hx
      · exact ih (fun kv' hkv' => hb kv' (List.mem_cons_of_mem _ hkv')) kv h x hx

lemma inv_insert (i : FileIndex) (p : Path) (h : Inv i) : Inv (i.insert p).2 := by
  unfold FileIndex.insert
  by_cases h1 : MAX_INDEX_SIZE ≤ i.pool.length
  · rw [if_pos h1]
    exact h
  · rw [if_neg h1]
    by_cases h2 : p ∈ i.seen_paths
    · rw [if_pos h2]
      exact h
    · rw [if_neg h2]
      cases h3 : fileNameStr p
      · exact h
      · have hlen : (i.pool ++ [p]).length = i.pool.length + 1 := by
          simp
        have hidx : i.pool.length % U32_MOD < i.pool.length + 1 :=
          Nat.lt_succ_of_le (Nat.mod_le _ _)
        constructor
        · show postingsBound (addPosting i.filename_index _ _) (i.pool ++ [p]).length
          rw [hlen]
          exact addPosting_bound (postingsBound_mono (Nat.le_succ _) h.1) hidx
        · show postingsBound
            (match pathExtension p with
             | some e => addPosting i.extension_index (toLowerStr e) (i.pool.length % U32_MOD)
             | none => i.extension_index) (i.pool ++ [p]).length
          rw [hlen]
          cases pathExtension p
          · exact postingsBound_mono (Nat.le_succ _) h.2
          · exact addPosting_bound (postingsBound_mono (Nat.le_succ _) h.2) hidx

lemma inv_applyOp (i : FileIndex) (op : Op) (h : Inv i) : Inv (applyOp i op) := by
  cases op with
  | ins p => exact inv_insert i p h
  | rem p =>
    show Inv (i.remove p).2
    unfold FileIndex.remove
    split
    · exact h
    · exact h
  | clr =>
    constructor <;> intro kv hkv <;> simp [applyOp, FileIndex.clear] at hkv
  | rebuild => exact h

lemma inv_foldl (ops : List Op) : ∀ i : FileIndex, Inv i → Inv (ops.foldl applyOp i) := by
  induction ops with
  | nil => intro i h; exact h
  | cons op rest ih => intro i h; exact ih _ (inv_applyOp i op h)

/-- C3: every pool index stored in the filename or extension posting list
is strictly below the pool length, after every sequence of `insert`,
`remove`, `clear` and `rebuild_cache` calls starting from the empty
index. -/
theorem index_ops_preserve_posting_bounds (ops : List Op) :
    Inv (ops.foldl applyOp FileIndex.new) := by
  refine inv_foldl ops FileIndex.new ⟨?_, ?_⟩ <;>
    intro kv hkv <;> simp [FileIndex.new] at hkv

/-! Claim C4. -/

/-- C4: `save` followed by `load` (version tag unchanged) yields an index
whose pool and both posting lists equal the originals; the statistics and
the seen-path set are not persisted — the loaded statistics are zero and
the seen-path set rebuilt by `rebuild_cache` equals the set of paths in
the pool. -/
theorem save_load_roundtrip (i : FileIndex) (h : i.version = INDEX_VERSION) :
    ∃ j : FileIndex,
      loadIndex (.good (saveIndex i)) = .ok j ∧
      j.pool = i.pool ∧
      j.filename_index = i.filename_index ∧
      j.extension_index = i.extension_index ∧
      j.stats = ⟨0, 0, 0⟩ ∧
      (∀ p : Path, p ∈ j.seen_paths ↔ p ∈ j.pool) := by
  refine ⟨FileIndex.rebuild_cache
    ⟨i.version, i.pool, i.filename_index, i.extension_index, [], ⟨0, 0, 0⟩⟩,
    ?_, rfl, rfl, rfl, rfl, ?_⟩
  · simp [loadIndex, saveIndex, h]
  · intro p
    simp [FileIndex.rebuild_cache, List.mem_dedup]

/-- Witness for C4 at a concrete input: the empty index round-trips. -/
theorem save_load_roundtrip_witness :
    ∃ j : FileIndex,
      loadIndex (.good (saveIndex FileIndex.new)) = .ok j ∧
      j.pool = FileIndex.new.pool ∧
      j.filename_index = FileIndex.new.filename_index ∧
      j.extension_index = FileIndex.new.extension_index ∧
      j.stats = ⟨0, 0, 0⟩ ∧
      (∀ p : Path, p ∈ j.seen_paths ↔ p ∈ j.pool) :=
  save_load_roundtrip FileIndex.new rfl

/-! Claim C1. -/

/-- The path used by the C1 counterexample. -/
def removedPath : Path := [some [ 'b', '.', 't', 'x', 't' ]]

/-- The index after inserting `removedPath` and then removing it. -/
def idxAfterRemove : FileIndex :=
  (((FileIndex.new.insert removedPath).2).remove removedPath).2

/-- C1 counterexample: after `remove` has returned `Removed` (true) for a
path and no re-insertion happened, a subsequent extension search still
returns that path — the removed path is not invisible to search. -/
theorem removed_path_still_searchable :
    ((FileIndex.new.insert removedPath).2.remove removedPath).1 = .ok true ∧
    removedPath ∈ (idxAfterRemove.search [ '.', 't', 'x', 't' ]).1 ∧
    removedPath ∉ idxAfterRemove.seen_paths := by
  refine ⟨by decide, by decide, by decide⟩

/-- The result list of `search` reads only the pool and the two posting
lists, never the seen-path set or the counters. -/
lemma search_fst_congr (a b : FileIndex) (q : Str) (hp : a.pool = b.pool)
    (hf : a.filename_index = b.filename_index)
    (he : a.extension_index = b.extension_index) :
    (a.search q).1 = (b.search q).1 := by
  cases a with | mk av ap af ae asn ast =>
  cases b with | mk bv bp bf be bsn bst =>
  dsimp only at hp hf he
  subst hp
  subst hf
  subst he
  by_cases hq : toLowerStr (trim q) = []
  · simp [FileIndex.search, hq]
  · simp [FileIndex.search, hq]
    rfl

/-- C1 amended: `remove` deletes the path only from the seen-path set
(making it eligible for re-insertion); the pool and both posting lists are
untouched, and the result list of every subsequent search is exactly what
it would have been without the removal — the bounds check filters only
indices at or above the pool length, which removal never changes. -/
theorem remove_leaves_search_unchanged (i : FileIndex) (p : Path) (q : Str) :
    ((i.remove p).2.search q).1 = (i.search q).1 ∧
    (i.remove p).2.pool = i.pool ∧
    (i.remove p).2.filename_index = i.filename_index ∧
    (i.remove p).2.extension_index = i.extension_index := by
  unfold FileIndex.remove
  split
  · exact ⟨search_fst_congr _ _ q rfl rfl rfl, rfl, rfl, rfl⟩
  · exact ⟨rfl, rfl, rfl, rfl⟩

/-! Claim C5. -/

/-- The state after inserting `f 0, …, f (n-1)` into the empty index. -/
def insertAll (f : Nat → Path) : Nat → FileIndex
  | 0 => FileIndex.new
  | n + 1 => ((insertAll f n).insert (f n)).2

lemma not_mem_map_range (f : Nat → Path) (hinj : Function.Injective f) (n : Nat) :
    f n ∉ (List.range n).map f := by
  intro hmem
  rcases List.mem_map.mp hmem with ⟨k, hk, hfk⟩
  have hkn : k = n := hinj hfk
  rw [hkn] at hk
  exact absurd (List.mem_range.mp hk) (lt_irrefl n)

lemma insertAll_spec (f : Nat → Path)
    (hval : ∀ k, (fileNameStr (f k)).isSome)
    (hinj : Function.Injective f) :
    ∀ n, n ≤ MAX_INDEX_SIZE →
      (insertAll f n).pool.length = n ∧
      (insertAll f n).seen_paths = (List.range n).map f := by
  intro n
  induction n with
  | zero => intro _; exact ⟨rfl, rfl⟩
  | succ n ih =>
    intro hle
    have hn := ih (Nat.le_of_succ_le hle)
    have hcap : (insertAll f n).pool.length < MAX_INDEX_SIZE := by omega
    have hseen : f n ∉ (insertAll f n).seen_paths := by
      rw [hn.2]
      exact not_mem_map_range f hinj n
    obtain ⟨s, hs⟩ : ∃ s, fileNameStr (f n) = some s := by
      cases hfn : fileNameStr (f n)
      · have hv := hval n
        rw [hfn] at hv
        simp at hv
      · exact ⟨_, rfl⟩
    have h3 := insert_ok _ (f n) s hcap hseen hs
    constructor
    · show ((insertAll f n).insert (f n)).2.pool.length = n + 1
      rw [h3.2.1, List.length_append, hn.1]
      rfl
    · show ((insertAll f n).insert (f n)).2.seen_paths = (List.range (n + 1)).map f
      rw [h3.2.2, hn.2, List.range_succ, List.map_append]
      rfl

/-- C5: starting from the empty index and inserting pairwise-distinct
valid paths, the N-th insert (N = `MAX_INDEX_SIZE`) returns Inserted and
the (N+1)-th fails with `Full`. -/
theorem insert_capacity_boundary (f : Nat → Path)
    (hval : ∀ k, (fileNameStr (f k)).isSome)
    (hinj : Function.Injective f) :
    ((insertAll f (MAX_INDEX_SIZE - 1)).insert (f (MAX_INDEX_SIZE - 1))).1 = .ok true ∧
    ((insertAll f MAX_INDEX_SIZE).insert (f MAX_INDEX_SIZE)).1 =
      .error (.IndexFull MAX_INDEX_SIZE) := by
  have hpos : 0 < MAX_INDEX_SIZE := by decide
  have h1 := insertAll_spec f hval hinj (MAX_INDEX_SIZE - 1) (Nat.sub_le _ _)
  have h2 := insertAll_spec f hval hinj MAX_INDEX_SIZE le_rfl
  constructor
  · have hcap : (insertAll f (MAX_INDEX_SIZE - 1)).pool.length < MAX_INDEX_SIZE := by omega
    have hseen : f (MAX_INDEX_SIZE - 1) ∉ (insertAll f (MAX_INDEX_SIZE - 1)).seen_paths := by
      rw [h1.2]
      exact not_mem_map_range f hinj _
    obtain ⟨s, hs⟩ : ∃ s, fileNameStr (f (MAX_INDEX_SIZE - 1)) = some s := by
      cases hfn : fileNameStr (f (MAX_INDEX_SIZE - 1))
      · have hv := hval (MAX_INDEX_SIZE - 1)
        rw [hfn] at hv
        simp at hv
      · exact ⟨_, rfl⟩
    exact (insert_ok _ _ s hcap hseen hs).1
  · exact insert_full _ _ (le_of_eq h2.1.symm)

/-- Pairwise-distinct valid paths for the C5 witness: `f n` has the
single filename component of `n + 1` letters. -/
def capWitnessPaths (n : Nat) : Path := [some (List.replicate n 'a' ++ [ 'x' ])]

lemma capWitnessPaths_injective : Function.Injective capWitnessPaths := by
  intro a b h
  have h2 : List.replicate a 'a' ++ [ 'x' ] = List.replicate b 'a' ++ [ 'x' ] := by
    simpa [capWitnessPaths] using h
  have hlen := congrArg List.length h2
  simpa using hlen

/-- Witness for C5 at a concrete family of distinct valid paths. -/
theorem insert_capacity_boundary_witness :
    ((insertAll capWitnessPaths (MAX_INDEX_SIZE - 1)).insert
        (capWitnessPaths (MAX_INDEX_SIZE - 1))).1 = .ok true ∧
    ((insertAll capWitnessPaths MAX_INDEX_SIZE).insert
        (capWitnessPaths MAX_INDEX_SIZE)).1 = .error (.IndexFull MAX_INDEX_SIZE) :=
  insert_capacity_boundary capWitnessPaths (fun _ => rfl) capWitnessPaths_injective

/-! Claim C10. -/

lemma lowerChar_eq_dot {c : Char} (h : lowerChar c = '.') : c = '.' := by
  unfold lowerChar at h
  repeat' split at h
  all_goals first | exact h | exact absurd h (by decide)

lemma dropWhile_all_matched (p : Char → Bool) (a : Char) (h : p a = true)
    (k : Nat) (t : Str) :
    List.dropWhile p (List.replicate k a ++ t) = List.dropWhile p t := by
  induction k with
  | zero => rfl
  | succ k ih =>
    rw [List.replicate_succ, List.cons_append, List.dropWhile_cons, if_pos h]
    exact ih

lemma isWS_dot : isWS '.' = false := by decide

lemma trimEnd_dots (k : Nat) (t : Str) (hk : 1 ≤ k) :
    trimEnd (List.replicate k '.' ++ t) = List.replicate k '.' ++ trimEnd t := by
  unfold trimEnd
  rw [List.reverse_append, List.reverse_replicate, List.dropWhile_append]
  have hdots : List.dropWhile isWS (List.replicate k '.') = List.replicate k '.' := by
    obtain ⟨j, rfl⟩ : ∃ j, k = j + 1 := ⟨k - 1, by omega⟩
    rw [List.replicate_succ, List.dropWhile_cons, isWS_dot]
    simp
  by_cases hemp : (List.dropWhile isWS t.reverse).isEmpty
  · rw [if_pos hemp, hdots, List.reverse_replicate]
    have h0 : List.dropWhile isWS t.reverse = [] := by
      simpa using hemp
    rw [h0]
    simp
  · rw [if_neg hemp, List.reverse_append, List.reverse_replicate]

lemma trim_dots (k : Nat) (s : Str) (hk : 1 ≤ k) :
    trim (List.replicate k '.' ++ s) = List.replicate k '.' ++ trimEnd s := by
  unfold trim
  have h1 : trimStart (List.replicate k '.' ++ s) = List.replicate k '.' ++ s := by
    unfold trimStart
    obtain ⟨j, rfl⟩ : ∃ j, k = j + 1 := ⟨k - 1, by omega⟩
    rw [List.replicate_succ, List.cons_append, List.dropWhile_cons, isWS_dot]
    simp
  rw [h1, trimEnd_dots k s hk]

lemma toLower_dots (k : Nat) (u : Str) :
    toLowerStr (List.replicate k '.' ++ u) = List.replicate k '.' ++ toLowerStr u := by
  unfold toLowerStr
  rw [List.map_append, List.map_replicate]
  rfl

lemma mem_of_trimEnd {c : Char} {s : Str} (h : c ∈ trimEnd s) : c ∈ s := by
  unfold trimEnd at h
  rw [List.mem_reverse] at h
  exact List.mem_reverse.mp ((List.dropWhile_sublist _).subset h)

lemma no_dot_lower {s : Str} (h : '.' ∉ s) : '.' ∉ toLowerStr s := by
  intro hm
  rcases List.mem_map.mp hm with ⟨c, hc, hlc⟩
  exact h (lowerChar_eq_dot hlc ▸ hc)

lemma searchMatched_dots (i : FileIndex) (t : Str) (m : Nat)
    (hm : 1 ≤ m) (ht : '.' ∉ t) :
    searchMatched i (List.replicate m '.' ++ t) =
      (findPostings i.extension_index (List.dropWhile (fun c => c == '.') t)).getD [] := by
  have hhead : (List.replicate m '.' ++ t).head? = some '.' := by
    obtain ⟨j, rfl⟩ : ∃ j, m = j + 1 := ⟨m - 1, by omega⟩
    simp [List.replicate_succ]
  have hext : List.dropWhile (fun c => c == '.') (List.replicate m '.' ++ t) =
      List.dropWhile (fun c => c == '.') t :=
    dropWhile_all_matched _ '.' rfl m t
  have hnd : ¬ ('.' ∈ List.dropWhile (fun c => c == '.') t) :=
    fun hmem => ht ((List.dropWhile_sublist _).subset hmem)
  simp only [searchMatched, hhead, if_pos, hext]
  rw [if_neg hnd]
  simp

/-- C10: `search` strips all leading dots from an extension query — for
any string with no `.` in it, a query of `k ≥ 1` leading dots followed by
it behaves exactly as the query with a single leading dot. -/
theorem search_strips_all_leading_dots (i : FileIndex) (s : Str) (k : Nat)
    (hk : 1 ≤ k) (hs : '.' ∉ s) :
    i.search (List.replicate k '.' ++ s) = i.search ('.' :: s) := by
  have ht : '.' ∉ toLowerStr (trimEnd s) :=
    no_dot_lower (fun hm => hs (mem_of_trimEnd hm))
  have hq : ∀ m, 1 ≤ m → toLowerStr (trim (List.replicate m '.' ++ s)) =
      List.replicate m '.' ++ toLowerStr (trimEnd s) := by
    intro m hm
    rw [trim_dots m s hm, toLower_dots]
  have hne : ∀ m, 1 ≤ m →
      ¬ (List.replicate m '.' ++ toLowerStr (trimEnd s) = ([] : Str)) := by
    intro m hm
    obtain ⟨j, rfl⟩ : ∃ j, m = j + 1 := ⟨m - 1, by omega⟩
    simp [List.replicate_succ]
  have hone : ('.' :: s) = List.replicate 1 '.' ++ s := rfl
  simp only [FileIndex.search, hone, hq k hk, hq 1 le_rfl]
  rw [if_neg (hne k hk), if_neg (hne 1 le_rfl),
      searchMatched_dots i _ k hk ht, searchMatched_dots i _ 1 le_rfl ht]

/-- A one-file index for the C10 witness. -/
def dotWitnessIndex : FileIndex :=
  (FileIndex.new.insert [some [ 'a', '.', 'p', 'd', 'f' ]]).2

/-- Witness for C10 at a concrete input: on an index holding `a.pdf`, the
query `..pdf` behaves as `.pdf`. -/
theorem search_strips_all_leading_dots_witness :
    dotWitnessIndex.search (List.replicate 2 '.' ++ [ 'p', 'd', 'f' ]) =
      dotWitnessIndex.search ('.' :: [ 'p', 'd', 'f' ]) :=
  search_strips_all_leading_dots dotWitnessIndex [ 'p', 'd', 'f' ] 2
    (by decide) (by decide)

end FlashFind
